import Mathlib

/-!
Verification of the tool/function-invocation core of the `aichat` repository.

The Rust sources embedded here (shallowly, as pure Lean functions) are:
- `src/function.rs` : `ToolCall`, `ToolResult`, `Functions`, `ToolCallConfig`,
  `ToolCall::dedup`, `ToolCall::eval`, `run_llm_function`, `eval_tool_calls`;
- `src/mcp/tool.rs` : `McpToolAdapter::call`, `ToolSet::add`;
- `src/mcp/client.rs` : `McpAdapter::init`.

External effects (the serde_json parser, subprocess execution, the remote
MCP server) are modelled as explicit oracle functions supplied as arguments,
so every definition is executable on concrete inputs.
-/

set_option maxHeartbeats 1000000

namespace Aichat

/-- Shallow embedding of `serde_json::Value`.  Numbers are modelled as `Int`
(the claims under verification never depend on float payloads). -/
inductive Value where
  | null : Value
  | bool : Bool → Value
  | num : Int → Value
  | str : String → Value
  | arr : List Value → Value
  | obj : List (String × Value) → Value
deriving Repr

mutual

/-- Decidable equality on `Value` (the automatic deriving handler does not
support this nested inductive). -/
def Value.decEq : (a b : Value) → Decidable (a = b)
  | .null, .null => isTrue rfl
  | .bool a, .bool b =>
    if h : a = b then isTrue (congrArg Value.bool h)
    else isFalse (fun e => Value.noConfusion e (fun h2 => h h2))
  | .num a, .num b =>
    if h : a = b then isTrue (congrArg Value.num h)
    else isFalse (fun e => Value.noConfusion e (fun h2 => h h2))
  | .str a, .str b =>
    if h : a = b then isTrue (congrArg Value.str h)
    else isFalse (fun e => Value.noConfusion e (fun h2 => h h2))
  | .arr xs, .arr ys =>
    match Value.decEqList xs ys with
    | isTrue h => isTrue (congrArg Value.arr h)
    | isFalse h => isFalse (fun e => Value.noConfusion e (fun h2 => h h2))
  | .obj fs, .obj gs =>
    match Value.decEqFields fs gs with
    | isTrue h => isTrue (congrArg Value.obj h)
    | isFalse h => isFalse (fun e => Value.noConfusion e (fun h2 => h h2))
  | .null, .bool _ => isFalse (fun e => Value.noConfusion e)
  | .null, .num _ => isFalse (fun e => Value.noConfusion e)
  | .null, .str _ => isFalse (fun e => Value.noConfusion e)
  | .null, .arr _ => isFalse (fun e => Value.noConfusion e)
  | .null, .obj _ => isFalse (fun e => Value.noConfusion e)
  | .bool _, .null => isFalse (fun e => Value.noConfusion e)
  | .bool _, .num _ => isFalse (fun e => Value.noConfusion e)
  | .bool _, .str _ => isFalse (fun e => Value.noConfusion e)
  | .bool _, .arr _ => isFalse (fun e => Value.noConfusion e)
  | .bool _, .obj _ => isFalse (fun e => Value.noConfusion e)
  | .num _, .null => isFalse (fun e => Value.noConfusion e)
  | .num _, .bool _ => isFalse (fun e => Value.noConfusion e)
  | .num _, .str _ => isFalse (fun e => Value.noConfusion e)
  | .num _, .arr _ => isFalse (fun e => Value.noConfusion e)
  | .num _, .obj _ => isFalse (fun e => Value.noConfusion e)
  | .str _, .null => isFalse (fun e => Value.noConfusion e)
  | .str _, .bool _ => isFalse (fun e => Value.noConfusion e)
  | .str _, .num _ => isFalse (fun e => Value.noConfusion e)
  | .str _, .arr _ => isFalse (fun e => Value.noConfusion e)
  | .str _, .obj _ => isFalse (fun e => Value.noConfusion e)
  | .arr _, .null => isFalse (fun e => Value.noConfusion e)
  | .arr _, .bool _ => isFalse (fun e => Value.noConfusion e)
  | .arr _, .num _ => isFalse (fun e => Value.noConfusion e)
  | .arr _, .str _ => isFalse (fun e => Value.noConfusion e)
  | .arr _, .obj _ => isFalse (fun e => Value.noConfusion e)
  | .obj _, .null => isFalse (fun e => Value.noConfusion e)
  | .obj _, .bool _ => isFalse (fun e => Value.noConfusion e)
  | .obj _, .num _ => isFalse (fun e => Value.noConfusion e)
  | .obj _, .str _ => isFalse (fun e => Value.noConfusion e)
  | .obj _, .arr _ => isFalse (fun e => Value.noConfusion e)

/-- Decidable equality on lists of `Value`. -/
def Value.decEqList : (xs ys : List Value) → Decidable (xs = ys)
  | [], [] => isTrue rfl
  | [], _ :: _ => isFalse (fun e => List.noConfusion e)
  | _ :: _, [] => isFalse (fun e => List.noConfusion e)
  | x :: xs, y :: ys =>
    match Value.decEq x y with
    | isTrue h1 =>
      match Value.decEqList xs ys with
      | isTrue h2 => isTrue (by rw [h1, h2])
      | isFalse h2 => isFalse (fun e => List.noConfusion e (fun _ ht => h2 ht))
    | isFalse h1 => isFalse (fun e => List.noConfusion e (fun hh _ => h1 hh))

/-- Decidable equality on object field lists. -/
def Value.decEqFields : (fs gs : List (String × Value)) → Decidable (fs = gs)
  | [], [] => isTrue rfl
  | [], _ :: _ => isFalse (fun e => List.noConfusion e)
  | _ :: _, [] => isFalse (fun e => List.noConfusion e)
  | (k, v) :: fs, (l, w) :: gs =>
    if hk : k = l then
      match Value.decEq v w with
      | isTrue h1 =>
        match Value.decEqFields fs gs with
        | isTrue h2 => isTrue (by rw [hk, h1, h2])
        | isFalse h2 => isFalse (fun e => List.noConfusion e (fun _ ht => h2 ht))
      | isFalse h1 =>
        isFalse (fun e =>
          List.noConfusion e (fun hh _ => h1 (congrArg Prod.snd hh)))
    else
      isFalse (fun e =>
        List.noConfusion e (fun hh _ => hk (congrArg Prod.fst hh)))

end

instance : DecidableEq Value := Value.decEq

instance {ε α : Type} [DecidableEq ε] [DecidableEq α] : DecidableEq (Except ε α) :=
  fun a b =>
    match a, b with
    | .ok x, .ok y =>
      if h : x = y then isTrue (congrArg Except.ok h)
      else isFalse (fun e => Except.noConfusion e (fun h2 => h h2))
    | .error x, .error y =>
      if h : x = y then isTrue (congrArg Except.error h)
      else isFalse (fun e => Except.noConfusion e (fun h2 => h h2))
    | .ok _, .error _ => isFalse (fun e => Except.noConfusion e)
    | .error _, .ok _ => isFalse (fun e => Except.noConfusion e)

/-- Rust `Value::is_null`. -/
def Value.isNull : Value → Bool
  | .null => true
  | _ => false

/-- Rust `Value::is_object`. -/
def Value.isObj : Value → Bool
  | .obj _ => true
  | _ => false

/-- One hexadecimal digit, used by the JSON string escaper. -/
def hexDigit (n : Nat) : String :=
  if n < 10 then String.singleton (Char.ofNat (48 + n))
  else String.singleton (Char.ofNat (87 + n))

/-- JSON string escaping as performed by serde_json's serializer. -/
def escapeChar (c : Char) : String :=
  if c = '"' then "\\\""
  else if c = '\\' then "\\\\"
  else if c = '\n' then "\\n"
  else if c = '\r' then "\\r"
  else if c = '\t' then "\\t"
  else if c = '\x08' then "\\b"
  else if c = '\x0c' then "\\f"
  else if c.toNat < 32 then "\\u00" ++ hexDigit (c.toNat / 16) ++ hexDigit (c.toNat % 16)
  else String.singleton c

/-- Escape a whole string for inclusion in serialized JSON. -/
def escapeJson (s : String) : String :=
  s.data.foldl (fun acc c => acc ++ escapeChar c) ""

mutual

/-- Compact JSON serialization of a `Value`, modelling the `Display` used by
`Value::to_string()` in the Rust code (object fields are rendered in their
stored order). -/
def Value.toJsonString : Value → String
  | .null => "null"
  | .bool true => "true"
  | .bool false => "false"
  | .num n => s!"{n}"
  | .str s => "\"" ++ escapeJson s ++ "\""
  | .arr xs => "[" ++ Value.listToJson xs ++ "]"
  | .obj fs => "\x7b" ++ Value.fieldsToJson fs ++ "\x7d"

/-- Comma-separated serialization of an array's elements. -/
def Value.listToJson : List Value → String
  | [] => ""
  | [x] => Value.toJsonString x
  | x :: xs => Value.toJsonString x ++ "," ++ Value.listToJson xs

/-- Comma-separated serialization of an object's fields. -/
def Value.fieldsToJson : List (String × Value) → String
  | [] => ""
  | [(k, v)] => "\"" ++ escapeJson k ++ "\":" ++ Value.toJsonString v
  | (k, v) :: fs =>
    "\"" ++ escapeJson k ++ "\":" ++ Value.toJsonString v ++ "," ++ Value.fieldsToJson fs

end

/-- Rust `ToolCall` from `src/function.rs`: a requested invocation. -/
structure ToolCall where
  name : String
  arguments : Value
  id : Option String
deriving DecidableEq, Repr

/-- Rust `ToolResult` from `src/function.rs`. -/
structure ToolResult where
  call : ToolCall
  output : Value
deriving DecidableEq, Repr

/-- Rust `FunctionDeclaration` from `src/function.rs`.  The `parameters` JSON
schema is carried verbatim in the Rust struct but never consulted by any of
the operations verified here, so it is omitted from the embedding. -/
structure FunctionDeclaration where
  name : String
  description : String
  agent : Bool
  allow_concurrency : Bool
deriving DecidableEq, Repr

/-- Rust `Functions` from `src/function.rs`: the global declaration store. -/
structure Functions where
  declarations : List FunctionDeclaration
deriving DecidableEq, Repr

/-- Rust `Functions::find`. -/
def Functions.find (fns : Functions) (name : String) : Option FunctionDeclaration :=
  fns.declarations.find? (fun v => v.name = name)

/-- The slice of `config::Agent` consulted by `ToolCallConfig::extract` and
`ToolCallConfig::from_agent`: its name, its own function declarations, and
its variable-derived environment. -/
structure Agent where
  name : String
  functions : Functions
  variable_envs : List (String × String)

/-- Rust `ToolCallConfig` from `src/function.rs`: a resolved execution spec. -/
structure ToolCallConfig where
  name : String
  cmd : String
  args : List String
  envs : List (String × String)
  concurrent : Bool
deriving DecidableEq, Repr

/-- The distinct batch-level `bail!` sites of `eval_tool_calls` in
`src/function.rs` (all are `anyhow::Error` values in Rust; the embedding
keeps them apart as constructors).  `functionNotFound` carries the
unresolvable name, matching `anyhow!("Function not found: {name}")`. -/
inductive DispatchError where
  | loopDetected : DispatchError
  | functionNotFound : String → DispatchError
  | reconstructFailed : DispatchError
deriving DecidableEq, Repr

/-- Rust `ToolCallConfig::from_declaration`. -/
def ToolCallConfig.from_declaration (function : FunctionDeclaration) : ToolCallConfig :=
  { name := function.name
    cmd := function.name
    args := []
    envs := []
    concurrent := function.allow_concurrency }

/-- Rust `ToolCallConfig::from_agent`. -/
def ToolCallConfig.from_agent (function : FunctionDeclaration) (agent : Agent) :
    Option ToolCallConfig :=
  if !function.agent then none
  else some
    { name := agent.name ++ "-" ++ function.name
      cmd := agent.name
      args := [function.name]
      envs := agent.variable_envs
      concurrent := function.allow_concurrency }

/-- The global-store fallback branch of `ToolCallConfig::extract`. -/
def ToolCallConfig.extractGlobal (function_name : String) (functions : Functions) :
    Except DispatchError ToolCallConfig :=
  match functions.find function_name with
  | some function => .ok (ToolCallConfig.from_declaration function)
  | none => .error (.functionNotFound function_name)

/-- Rust `ToolCallConfig::extract` from `src/function.rs`: agent scope first
(only for declarations flagged `agent`), then the global declaration store;
the only failure is `Function not found`. -/
def ToolCallConfig.extract (function_name : String) (functions : Functions)
    (agent : Option Agent) : Except DispatchError ToolCallConfig :=
  match agent with
  | some ag =>
    match ag.functions.find function_name with
    | some function =>
      if function.agent then
        match ToolCallConfig.from_agent function ag with
        | some config => .ok config
        | none => ToolCallConfig.extractGlobal function_name functions
      else ToolCallConfig.extractGlobal function_name functions
    | none => ToolCallConfig.extractGlobal function_name functions
  | none => ToolCallConfig.extractGlobal function_name functions

/-- Observable outcome of `run_command_with_output` plus the state of the
per-call temp output file afterwards: `success` is the child's exit status,
`llmOutput` is `some contents` when the temp file exists with non-empty
contents and `none` when it is absent or empty. -/
structure RunOutcome where
  success : Bool
  stdout : String
  stderr : String
  llmOutput : Option String
deriving DecidableEq, Repr

/-- External-world oracle: `parse` models `serde_json::from_str` (returning
`none` on parse failure) and `runner` models spawning the child process
(`Except.error` models `run_command_with_output` itself failing, i.e. the
command could not be run at all). -/
structure ExecEnv where
  parse : String → Option Value
  runner : String → List String → Except String RunOutcome

/-- Rust `run_llm_function` from `src/function.rs`.  The PATH construction, the
`LLM_OUTPUT` env var and the terminal echo are environment plumbing absorbed
into the `runner` oracle; only the value-level behaviour is kept: a spawn
failure yields `Unable to run ...`, a non-zero exit bails with the
serialized `error:true, stdout, stderr` JSON object as the error message
(that is what `bail!(json!(..))` produces), success returns the temp file's
non-empty contents, if any. -/
def run_llm_function (env : ExecEnv) (cmd_name : String) (cmd_args : List String) :
    Except String (Option String) :=
  match env.runner cmd_name cmd_args with
  | .error err => .error ("Unable to run " ++ cmd_name ++ ", " ++ err)
  | .ok out =>
    if !out.success then
      .error (Value.toJsonString
        (.obj [("error", .bool true), ("stdout", .str out.stdout), ("stderr", .str out.stderr)]))
    else .ok out.llmOutput

/-- The argument-normalization prefix of `ToolCall::eval`: an object is taken
as-is, a string is parsed as JSON, anything else (or a parse failure) is an
invalid-arguments error carrying the raw value. -/
def ToolCall.normalizeArguments (env : ExecEnv) (tc : ToolCall) (call_name : String) :
    Except String Value :=
  if tc.arguments.isObj then .ok tc.arguments
  else
    match tc.arguments with
    | .str s =>
      match env.parse s with
      | some v => .ok v
      | none => .error ("The call '" ++ call_name ++ "' has invalid arguments: " ++ s)
    | other =>
      .error ("The call '" ++ call_name ++ "' has invalid arguments: " ++ other.toJsonString)

/-- Rust `ToolCall::eval` from `src/function.rs`: normalize arguments, append the
serialized argument object as the final command-line argument, run the
function, and map the temp-file contents to the call's value (parsed JSON,
`output`-wrapped raw text, or null). -/
def ToolCall.eval (env : ExecEnv) (tc : ToolCall) (config : ToolCallConfig) :
    Except String Value :=
  match tc.normalizeArguments env config.name with
  | .error e => .error e
  | .ok json_data =>
    let cmd_args := config.args ++ [json_data.toJsonString]
    match run_llm_function env config.cmd cmd_args with
    | .error e => .error e
    | .ok (some contents) =>
      match env.parse contents with
      | some v => .ok v
      | none => .ok (.obj [("output", .str contents)])
    | .ok none => .ok .null

/-- Rust `ToolResult::new`. -/
def ToolResult.new (call : ToolCall) (output : Value) : ToolResult :=
  { call := call, output := output }

/-- Rust `ToolResult::new_from_eval_result` from `src/function.rs`: a null success
value becomes the sentinel `"DONE"`, an error becomes the structured
`error:true, message` object. -/
def ToolResult.new_from_eval_result (call : ToolCall) (eval_result : Except String Value) :
    ToolResult :=
  let output :=
    match eval_result with
    | .ok result => if result.isNull then Value.str "DONE" else result
    | .error e => Value.obj [("error", .bool true), ("message", .str e)]
  ToolResult.new call output

/-- The reverse-scan worker of `ToolCall::dedup`: `seen` models the
`HashSet<String>` of ids already kept. -/
def ToolCall.dedupGo (seen : List String) : List ToolCall → List ToolCall
  | [] => []
  | call :: rest =>
    match call.id with
    | some id =>
      if seen.contains id then ToolCall.dedupGo seen rest
      else call :: ToolCall.dedupGo (id :: seen) rest
    | none => call :: ToolCall.dedupGo seen rest

/-- Rust `ToolCall::dedup` from `src/function.rs`: scan the calls in reverse,
keep a call when it has no id or an id not yet seen, then restore forward
order. -/
def ToolCall.dedup (calls : List ToolCall) : List ToolCall :=
  (ToolCall.dedupGo [] calls.reverse).reverse

/-- Positional `(index, call)` enumeration, modelling `calls.into_iter().enumerate()`. -/
def enumFrom {α : Type} : Nat → List α → List (Nat × α)
  | _, [] => []
  | n, x :: xs => (n, x) :: enumFrom (n + 1) xs

/-- The dispatch loop of `eval_tool_calls` (source lines 45-58): resolve
each call's config in order; non-concurrent calls are evaluated on the spot
and recorded against their position, concurrent calls are collected as
spawned tasks.  The `?` on `ToolCallConfig::extract` makes the first
resolution failure abort the whole loop. -/
def dispatchPhase (env : ExecEnv) (functions : Functions) (agent : Option Agent) :
    List (Nat × ToolCall) →
    Except DispatchError (List (Nat × ToolResult) × List (Nat × ToolCall × ToolCallConfig))
  | [] => .ok ([], [])
  | (index, call) :: rest =>
    match ToolCallConfig.extract call.name functions agent with
    | .error e => .error e
    | .ok call_config =>
      if call_config.concurrent then
        match dispatchPhase env functions agent rest with
        | .error e => .error e
        | .ok (seqs, tasks) => .ok (seqs, (index, call, call_config) :: tasks)
      else
        let result := ToolResult.new_from_eval_result call (call.eval env call_config)
        match dispatchPhase env functions agent rest with
        | .error e => .error e
        | .ok (seqs, tasks) => .ok ((index, result) :: seqs, tasks)

/-- Evaluation of one spawned concurrent task (the closure passed to
`tokio::spawn` plus the `new_from_eval_result` wrapping of its join
result). -/
def taskEval (env : ExecEnv) (t : Nat × ToolCall × ToolCallConfig) : Nat × ToolResult :=
  (t.1, ToolResult.new_from_eval_result t.2.1 (t.2.1.eval env t.2.2))

/-- Lookup by position in the `results_map` association list (modelling
`HashMap<usize, ToolResult>`; every insertion in `eval_tool_calls` uses a
fresh index, so the list is an exact map). -/
def lookupResult (m : List (Nat × ToolResult)) (i : Nat) : Option ToolResult :=
  match m.find? (fun p => p.1 == i) with
  | some p => some p.2
  | none => none

/-- The reconstruction loop (source lines 76-84): positions `i, i+1, ...`
are looked up one by one; a missing position is the internal-consistency
failure. -/
def reconstructFrom (m : List (Nat × ToolResult)) (i : Nat) :
    Nat → Except DispatchError (List ToolResult)
  | 0 => .ok []
  | n + 1 =>
    match lookupResult m i with
    | some result =>
      match reconstructFrom m (i + 1) n with
      | .error e => .error e
      | .ok rest => .ok (result :: rest)
    | none => .error .reconstructFailed

/-- Reconstruct the output vector in the original order, for positions
`0 .. n-1`. -/
def reconstruct (m : List (Nat × ToolResult)) (n : Nat) :
    Except DispatchError (List ToolResult) :=
  reconstructFrom m 0 n

/-- The all-null-or-DONE test of `eval_tool_calls` (source lines 86-88). -/
def allDone (l : List ToolResult) : Bool :=
  l.all (fun tr => tr.output.isNull || decide (tr.output = Value.str "DONE"))

/-- Rust `eval_tool_calls` from `src/function.rs`.  `functions` and `agent` are
the read-only config snapshots; `completionOrder` abstracts the order in
which the concurrent tasks' `(index, result)` pairs reach `results_map`
(in the code this is `join_all` order; any permutation is allowed so that
completion-order independence can be stated).  Tasks are pure evaluations
here, so the `JoinHandle` failure branch (`BatchExecutionFailed`) cannot
fire and is not modelled. -/
def eval_tool_calls (env : ExecEnv) (functions : Functions) (agent : Option Agent)
    (completionOrder : List (Nat × ToolResult) → List (Nat × ToolResult))
    (calls : List ToolCall) : Except DispatchError (List ToolResult) :=
  if calls.isEmpty then .ok []
  else
    let calls := ToolCall.dedup calls
    if calls.isEmpty then .error .loopDetected
    else
      match dispatchPhase env functions agent (enumFrom 0 calls) with
      | .error e => .error e
      | .ok (seqResults, tasks) =>
        let concurrentResults := completionOrder (tasks.map (taskEval env))
        let resultsMap := seqResults ++ concurrentResults
        match reconstruct resultsMap resultsMap.length with
        | .error e => .error e
        | .ok final_output => .ok (if allDone final_output then [] else final_output)

/-! ### Spec-side definitions

The following definitions are written from the specification's words, to be
compared with the source-derived definitions above. -/

/-- Modelled from the spec (§4.3 step 1): a call survives deduplication
exactly when it carries no id, or no later call in the list carries the
same id. -/
def keepPred (rest : List ToolCall) (c : ToolCall) : Bool :=
  match c.id with
  | none => true
  | some id => rest.all (fun c2 => decide (c2.id ≠ some id))

/-- Variant of `keepPred` additionally filtered by a set of ids already claimed by
calls even later in the original list (proof device for relating the
reverse scan to the forward filter). -/
def keepSeen (seen : List String) (rest : List ToolCall) (c : ToolCall) : Bool :=
  match c.id with
  | none => true
  | some id => !seen.contains id && rest.all (fun c2 => decide (c2.id ≠ some id))

/-- Forward filter generalized by a seen-set. -/
def dedupSpecSeen (seen : List String) : List ToolCall → List ToolCall
  | [] => []
  | c :: rest =>
    if keepSeen seen rest c then c :: dedupSpecSeen seen rest
    else dedupSpecSeen seen rest

/-- Modelled from the spec: deduplication keeps exactly the calls allowed by
`keepPred`, in their original relative order. -/
def dedupSpec : List ToolCall → List ToolCall
  | [] => []
  | c :: rest => if keepPred rest c then c :: dedupSpec rest else dedupSpec rest

/-- The id contributed to the seen-set by one call (none for id-less
calls). -/
def addSeen (c : ToolCall) (seen : List String) : List String :=
  match c.id with
  | some id => id :: seen
  | none => seen

/-- Whether a call at the very end of the scanned list is kept, given the
ids claimed by calls after it. -/
def keepEnd (seen : List String) (c : ToolCall) : Bool :=
  match c.id with
  | none => true
  | some id => !seen.contains id

/-- A list is stable under deduplication: every call is allowed by
`keepPred` with respect to the calls after it. -/
def noLaterDup : List ToolCall → Bool
  | [] => true
  | c :: rest => keepPred rest c && noLaterDup rest

/-- Resolve every call of a batch in order, stopping at the first failure
(the sequential composition of the `ToolCallConfig::extract(..)?` calls). -/
def resolveAll (functions : Functions) (agent : Option Agent) :
    List ToolCall → Except DispatchError (List ToolCallConfig)
  | [] => .ok []
  | c :: rest =>
    match ToolCallConfig.extract c.name functions agent with
    | .error e => .error e
    | .ok cfg =>
      match resolveAll functions agent rest with
      | .error e => .error e
      | .ok cfgs => .ok (cfg :: cfgs)

/-- Evaluate every call against its resolved config, in order, wrapping each
outcome with `new_from_eval_result`. -/
def runCalls (env : ExecEnv) (calls : List ToolCall) (cfgs : List ToolCallConfig) :
    List ToolResult :=
  (calls.zip cfgs).map (fun p => ToolResult.new_from_eval_result p.1 (p.1.eval env p.2))

/-- The dispatcher's results before the final all-null-or-DONE collapse:
one result per deduplicated call, in order. -/
def dispatchRaw (env : ExecEnv) (functions : Functions) (agent : Option Agent)
    (calls : List ToolCall) : Except DispatchError (List ToolResult) :=
  match resolveAll functions agent (ToolCall.dedup calls) with
  | .error e => .error e
  | .ok cfgs => .ok (runCalls env (ToolCall.dedup calls) cfgs)

/-- Sequential reference semantics of the dispatcher: dedup, resolve all,
evaluate in order, collapse an all-null-or-DONE result list to `[]`. -/
def evalSpec (env : ExecEnv) (functions : Functions) (agent : Option Agent)
    (calls : List ToolCall) : Except DispatchError (List ToolResult) :=
  if calls.isEmpty then .ok []
  else
    match dispatchRaw env functions agent calls with
    | .error e => .error e
    | .ok r => .ok (if allDone r then [] else r)

/-! ### MCP layer (`src/mcp/tool.rs`, `src/mcp/client.rs`) -/

/-- The fields of `rmcp::model::Tool` consulted by the adapter (the input
schema and annotations are carried but never consulted by `call`). -/
structure McpTool where
  name : String
  description : Option String
deriving DecidableEq, Repr

/-- The slice of `rmcp::model::CallToolResult` needed here: it is returned
unmodified, so only a payload is kept. -/
structure CallToolResult where
  content : List Value
  isError : Option Bool
deriving DecidableEq, Repr

/-- Rust `rmcp::model::CallToolRequestParam`: a remote call request with optional
named arguments. -/
structure CallToolRequestParam where
  name : String
  arguments : Option (List (String × Value))
deriving DecidableEq, Repr

/-- Rust `McpToolAdapter` from `src/mcp/tool.rs`: one exposed remote tool plus a
handle to its owning connection.  The `ServerSink` is modelled as a response
oracle; `Except.error` models a remote-side call failure propagated by
`?`. -/
structure McpToolAdapter where
  tool : McpTool
  server : CallToolRequestParam → Except String CallToolResult

/-- Rust `McpToolAdapter::call` from `src/mcp/tool.rs`.  The first component of
the result records the requests issued on the server sink (the single
`call_tool` await); the second is the remote result, propagated
unmodified. -/
def McpToolAdapter.call (a : McpToolAdapter) (args : Value) :
    List CallToolRequestParam × Except String CallToolResult :=
  let arguments : Option (List (String × Value)) :=
    match args with
    | .obj map => some map
    | _ => none
  let req : CallToolRequestParam := { name := a.tool.name, arguments := arguments }
  ([req], a.server req)

/-- Rust `ToolSet` from `src/mcp/tool.rs`, generic over the stored tool (the Rust
field holds `Arc<dyn Tool>` trait objects).  The `HashMap<String, _>` is
modelled as a function map, which carries the map's one-entry-per-key
invariant by construction. -/
structure ToolSet (T : Type) where
  tools : String → Option T

/-- The `Default` empty tool set. -/
def ToolSet.empty {T : Type} : ToolSet T := ⟨fun _ => none⟩

/-- Rust `ToolSet::get`. -/
def ToolSet.get {T : Type} (ts : ToolSet T) (name : String) : Option T :=
  ts.tools name

/-- Rust `HashMap::insert`: bind `name`, replacing any previous binding. -/
def ToolSet.insert {T : Type} (ts : ToolSet T) (name : String) (t : T) : ToolSet T :=
  ⟨fun n => if n = name then some t else ts.tools n⟩

/-- Rust `ToolSet::add` from `src/mcp/tool.rs`: insert every tool under its name,
in list order (`nameOf` plays the role of the `Tool::name` trait method). -/
def ToolSet.add {T : Type} (nameOf : T → String) (ts : ToolSet T) (tools : List T) :
    ToolSet T :=
  tools.foldl (fun acc tool => acc.insert (nameOf tool) tool) ts

/-- Rust `McpAdapter` from `src/mcp/client.rs`. -/
structure McpAdapter (T : Type) where
  clients : List String
  toolset : ToolSet T

/-- Rust `McpAdapter::init` from `src/mcp/client.rs`.  Each configured server is
processed in turn: its tools (as discovered by `get_mcp_tools`) are added to
the shared tool set and its connection is recorded.  Transport establishment
is I/O, absorbed here: each list entry carries the server's name and the
tools discovered from it; the input list order models the order in which the
Rust loop iterates `configs.servers`. -/
def McpAdapter.init {T : Type} (nameOf : T → String) (servers : List (String × List T)) :
    McpAdapter T :=
  let final := servers.foldl
    (fun (acc : List String × ToolSet T) entry =>
      (acc.1 ++ [entry.1], acc.2.add nameOf entry.2))
    ([], ToolSet.empty)
  { clients := final.1, toolset := final.2 }

/-! ### Concrete sample environments (used to evaluate the theorems on
concrete inputs) -/

/-- Sample world: every command succeeds and writes no output; nothing
parses as JSON. -/
def envNull : ExecEnv :=
  ⟨fun _ => none, fun _ _ => .ok ⟨true, "", "", none⟩⟩

/-- Sample world: every command succeeds and writes the plain text `hello`
(which does not parse as JSON). -/
def envHello : ExecEnv :=
  ⟨fun _ => none, fun _ _ => .ok ⟨true, "", "", some "hello"⟩⟩

/-- Sample world: `failing_tool` exits non-zero with diagnostics `out` /
`err`; every other command succeeds and writes the plain text `hello`. -/
def envMixed : ExecEnv :=
  ⟨fun _ => none,
    fun cmd _ =>
      if cmd = "failing_tool" then .ok ⟨false, "out", "err", none⟩
      else .ok ⟨true, "", "", some "hello"⟩⟩

/-- Sample world: every command writes the JSON text for the object with
field `x = 1`, and the parser recognizes exactly that text. -/
def envJson : ExecEnv :=
  ⟨fun s => if s = "\x7b\"x\":1\x7d" then some (.obj [("x", .num 1)]) else none,
    fun _ _ => .ok ⟨true, "", "", some "\x7b\"x\":1\x7d"⟩⟩

/-- Sample remote server: answers every request with one text content block
naming the requested tool. -/
def sampleServer : CallToolRequestParam → Except String CallToolResult :=
  fun req => .ok ⟨[.str req.name], some false⟩

/-- Sample remote-tool adapter for a tool named `search`. -/
def sampleAdapter : McpToolAdapter := ⟨⟨"search", none⟩, sampleServer⟩

/-! ## Deduplication lemmas -/

theorem keepSeen_nil (rest : List ToolCall) (c : ToolCall) :
    keepSeen [] rest c = keepPred rest c := by
  cases hc : c.id <;> simp [keepSeen, keepPred, hc]

theorem dedupSpecSeen_nil_eq (l : List ToolCall) : dedupSpecSeen [] l = dedupSpec l := by
  induction l with
  | nil => rfl
  | cons c rest ih => simp only [dedupSpecSeen, dedupSpec, keepSeen_nil, ih]

theorem keepSeen_ext (s1 s2 : List String) (rest : List ToolCall) (c : ToolCall)
    (h : ∀ j, s1.contains j = s2.contains j) : keepSeen s1 rest c = keepSeen s2 rest c := by
  cases hc : c.id with
  | none => simp [keepSeen, hc]
  | some id => simp only [keepSeen, hc]; rw [h id]

theorem dedupSpecSeen_ext (l : List ToolCall) (s1 s2 : List String)
    (h : ∀ j, s1.contains j = s2.contains j) : dedupSpecSeen s1 l = dedupSpecSeen s2 l := by
  induction l with
  | nil => rfl
  | cons c rest ih => simp only [dedupSpecSeen, keepSeen_ext s1 s2 rest c h, ih]

theorem keepSeen_append_singleton (seen : List String) (c x : ToolCall)
    (xs : List ToolCall) :
    keepSeen seen (xs ++ [c]) x = keepSeen (addSeen c seen) xs x := by
  cases hxid : x.id with
  | none => simp [keepSeen, hxid]
  | some j =>
    cases hcid : c.id with
    | none => simp [keepSeen, addSeen, hxid, hcid, List.all_append]
    | some id =>
      by_cases hji : j = id
      · subst hji
        simp [keepSeen, addSeen, hxid, hcid, List.all_append]
      · have h2 : (j == id) = false := by simp [hji]
        have h3 : decide (id = j) = false := by
          simp only [decide_eq_false_iff_not]
          exact fun e => hji e.symm
        have h4 : decide (j = id) = false := by simp [hji]
        simp [keepSeen, addSeen, hxid, hcid, List.all_append, h2, h3, h4]

theorem dedupSpecSeen_append_singleton (c : ToolCall) (xs : List ToolCall)
    (seen : List String) :
    dedupSpecSeen seen (xs ++ [c]) =
      dedupSpecSeen (addSeen c seen) xs ++ (if keepEnd seen c then [c] else []) := by
  induction xs generalizing seen with
  | nil =>
    cases hc : c.id with
    | none => simp [dedupSpecSeen, keepSeen, keepEnd, hc]
    | some id => by_cases hs : seen.contains id <;>
        simp [dedupSpecSeen, keepSeen, keepEnd, hc, hs]
  | cons x xs ih =>
    have hx := keepSeen_append_singleton seen c x xs
    simp only [List.cons_append, dedupSpecSeen, List.append_eq]
    rw [hx, ih seen]
    by_cases hkeep : keepSeen (addSeen c seen) xs x = true <;> simp [hkeep]

theorem dedupGo_reverse (l : List ToolCall) (seen : List String) :
    (ToolCall.dedupGo seen l).reverse = dedupSpecSeen seen l.reverse := by
  induction l generalizing seen with
  | nil => simp [ToolCall.dedupGo, dedupSpecSeen]
  | cons c rest ih =>
    rw [List.reverse_cons, dedupSpecSeen_append_singleton]
    cases hc : c.id with
    | none =>
      simp [ToolCall.dedupGo, hc, ih, addSeen, keepEnd]
    | some id =>
      by_cases hs : seen.contains id = true
      · have hmem : id ∈ seen := by simpa using hs
        have hext : dedupSpecSeen seen rest.reverse = dedupSpecSeen (id :: seen) rest.reverse := by
          refine dedupSpecSeen_ext _ _ _ (fun j => ?_)
          simp only [List.contains_cons]
          by_cases hj : j = id
          · subst hj; simp [hmem]
          · simp [hj]
        have hgo : ToolCall.dedupGo seen (c :: rest) = ToolCall.dedupGo seen rest := by
          simp [ToolCall.dedupGo, hc, hmem]
        have hend : keepEnd seen c = false := by simp [keepEnd, hc, hmem]
        rw [hgo, ih seen, hend]
        rw [show addSeen c seen = id :: seen from by simp [addSeen, hc]]
        simpa using hext
      · have hmem : ¬ id ∈ seen := by simpa using hs
        have hgo : ToolCall.dedupGo seen (c :: rest) = c :: ToolCall.dedupGo (id :: seen) rest := by
          simp [ToolCall.dedupGo, hc, hmem]
        have hend : keepEnd seen c = true := by simp [keepEnd, hc, hmem]
        rw [hgo, List.reverse_cons, ih (id :: seen), hend]
        simp [addSeen, hc]

/-- Characterization: `ToolCall::dedup` computes exactly the forward filter described by the
spec: keep a call iff it has no id or no later call shares its id. -/
theorem dedup_eq_dedupSpec (calls : List ToolCall) :
    ToolCall.dedup calls = dedupSpec calls := by
  unfold ToolCall.dedup
  rw [dedupGo_reverse, List.reverse_reverse, dedupSpecSeen_nil_eq]

theorem dedupSpec_sublist (l : List ToolCall) : (dedupSpec l).Sublist l := by
  induction l with
  | nil => exact List.Sublist.refl []
  | cons c rest ih =>
    by_cases h : keepPred rest c = true
    · simpa [dedupSpec, h] using ih.cons₂ c
    · simpa [dedupSpec, h] using ih.cons c

theorem dedup_sublist (calls : List ToolCall) : (ToolCall.dedup calls).Sublist calls := by
  rw [dedup_eq_dedupSpec]; exact dedupSpec_sublist calls

theorem dedupGo_cons_ne_nil (c : ToolCall) (rest : List ToolCall) :
    ToolCall.dedupGo [] (c :: rest) ≠ [] := by
  cases hc : c.id <;> simp [ToolCall.dedupGo, hc]

/-- Deduplication of a non-empty list is non-empty (the last call of the
original list is always kept). -/
theorem dedup_ne_nil (calls : List ToolCall) (h : calls ≠ []) :
    ToolCall.dedup calls ≠ [] := by
  unfold ToolCall.dedup
  have hrev : calls.reverse ≠ [] := by simpa using h
  obtain ⟨c, r, hr⟩ := List.exists_cons_of_ne_nil hrev
  rw [hr]
  intro hcontra
  exact dedupGo_cons_ne_nil c r (by simpa using hcontra)

theorem all_of_sublist {p : ToolCall → Bool} {l1 l2 : List ToolCall}
    (h : l1.Sublist l2) (h2 : l2.all p = true) : l1.all p = true := by
  rw [List.all_eq_true] at h2 ⊢
  exact fun x hx => h2 x (h.subset hx)

theorem keepPred_sublist {l1 l2 : List ToolCall} (c : ToolCall)
    (h : l1.Sublist l2) (h2 : keepPred l2 c = true) : keepPred l1 c = true := by
  cases hc : c.id with
  | none => simp [keepPred, hc]
  | some id =>
    simp only [keepPred, hc] at h2 ⊢
    exact all_of_sublist h h2

theorem noLaterDup_dedupSpec (l : List ToolCall) : noLaterDup (dedupSpec l) = true := by
  induction l with
  | nil => rfl
  | cons c rest ih =>
    by_cases h : keepPred rest c = true
    · simp only [dedupSpec, h, if_true, noLaterDup, Bool.and_eq_true]
      exact ⟨keepPred_sublist c (dedupSpec_sublist rest) h, ih⟩
    · simpa [dedupSpec, h] using ih

theorem dedupSpec_of_noLaterDup (l : List ToolCall) (h : noLaterDup l = true) :
    dedupSpec l = l := by
  induction l with
  | nil => rfl
  | cons c rest ih =>
    simp only [noLaterDup, Bool.and_eq_true] at h
    simp [dedupSpec, h.1, ih h.2]

/-! ## Dispatcher lemmas -/

theorem enumFrom_length {α : Type} (k : Nat) (xs : List α) :
    (enumFrom k xs).length = xs.length := by
  induction xs generalizing k with
  | nil => rfl
  | cons x xs ih => simp [enumFrom, ih]

theorem enumFrom_map_fst {α : Type} (k : Nat) (xs : List α) :
    (enumFrom k xs).map Prod.fst = List.range' k xs.length := by
  induction xs generalizing k with
  | nil => rfl
  | cons x xs ih => simp [enumFrom, List.range', ih]

theorem resolveAll_ok_length {functions : Functions} {agent : Option Agent}
    {l : List ToolCall} {cfgs : List ToolCallConfig}
    (h : resolveAll functions agent l = .ok cfgs) : cfgs.length = l.length := by
  induction l generalizing cfgs with
  | nil =>
    simp only [resolveAll] at h
    injection h with h
    simp [← h]
  | cons c rest ih =>
    simp only [resolveAll] at h
    cases hx : ToolCallConfig.extract c.name functions agent with
    | error e => rw [hx] at h; exact absurd h (by simp)
    | ok cfg =>
      rw [hx] at h
      cases hr : resolveAll functions agent rest with
      | error e => rw [hr] at h; exact absurd h (by simp)
      | ok cfgs2 =>
        rw [hr] at h
        injection h with h
        simp [← h, ih hr]

theorem resolveAll_ok_extract {functions : Functions} {agent : Option Agent}
    {l : List ToolCall} {cfgs : List ToolCallConfig}
    (h : resolveAll functions agent l = .ok cfgs) :
    ∀ p ∈ l.zip cfgs, ToolCallConfig.extract p.1.name functions agent = .ok p.2 := by
  induction l generalizing cfgs with
  | nil => intro p hp; simp at hp
  | cons c rest ih =>
    simp only [resolveAll] at h
    cases hx : ToolCallConfig.extract c.name functions agent with
    | error e => rw [hx] at h; exact absurd h (by simp)
    | ok cfg =>
      rw [hx] at h
      cases hr : resolveAll functions agent rest with
      | error e => rw [hr] at h; exact absurd h (by simp)
      | ok cfgs2 =>
        rw [hr] at h
        injection h with h
        subst h
        intro p hp
        rw [List.zip_cons_cons] at hp
        rcases List.mem_cons.mp hp with h1 | h2
        · subst h1; exact hx
        · exact ih hr p h2

theorem resolveAll_error_exists {functions : Functions} {agent : Option Agent}
    {l : List ToolCall} {e : DispatchError}
    (h : resolveAll functions agent l = .error e) :
    ∃ c ∈ l, ToolCallConfig.extract c.name functions agent = .error e := by
  induction l with
  | nil => simp only [resolveAll] at h; exact absurd h (by simp)
  | cons c rest ih =>
    simp only [resolveAll] at h
    cases hx : ToolCallConfig.extract c.name functions agent with
    | error e2 =>
      rw [hx] at h
      injection h with h
      exact ⟨c, List.mem_cons_self c rest, by rw [hx, h]⟩
    | ok cfg =>
      rw [hx] at h
      cases hr : resolveAll functions agent rest with
      | error e2 =>
        rw [hr] at h
        injection h with h
        obtain ⟨c2, hc2, hex⟩ := ih (by rw [hr, h])
        exact ⟨c2, List.mem_cons_of_mem c hc2, hex⟩
      | ok cfgs2 => rw [hr] at h; exact absurd h (by simp)

theorem resolveAll_ok_of_forall {functions : Functions} {agent : Option Agent}
    {l : List ToolCall}
    (h : ∀ c ∈ l, ∃ cfg, ToolCallConfig.extract c.name functions agent = .ok cfg) :
    ∃ cfgs, resolveAll functions agent l = .ok cfgs := by
  induction l with
  | nil => exact ⟨[], rfl⟩
  | cons c rest ih =>
    obtain ⟨cfg, hcfg⟩ := h c (List.mem_cons_self c rest)
    obtain ⟨cfgs, hcfgs⟩ := ih (fun c2 hc2 => h c2 (List.mem_cons_of_mem c hc2))
    exact ⟨cfg :: cfgs, by simp [resolveAll, hcfg, hcfgs]⟩

theorem extractGlobal_error_shape {function_name : String} {functions : Functions}
    {e : DispatchError}
    (h : ToolCallConfig.extractGlobal function_name functions = .error e) :
    e = .functionNotFound function_name := by
  unfold ToolCallConfig.extractGlobal at h
  cases hf : functions.find function_name with
  | some f => rw [hf] at h; exact absurd h (by simp)
  | none => rw [hf] at h; injection h with h; exact h.symm

theorem extract_error_shape {function_name : String} {functions : Functions}
    {agent : Option Agent} {e : DispatchError}
    (h : ToolCallConfig.extract function_name functions agent = .error e) :
    e = .functionNotFound function_name := by
  cases agent with
  | none =>
    simp only [ToolCallConfig.extract] at h
    exact extractGlobal_error_shape h
  | some ag =>
    simp only [ToolCallConfig.extract] at h
    cases hf : ag.functions.find function_name with
    | none => rw [hf] at h; exact extractGlobal_error_shape h
    | some f =>
      rw [hf] at h
      dsimp only at h
      by_cases hfa : f.agent = true
      · rw [if_pos hfa] at h
        cases hfrom : ToolCallConfig.from_agent f ag with
        | some config => rw [hfrom] at h; exact absurd h (by simp)
        | none => rw [hfrom] at h; exact extractGlobal_error_shape h
      · rw [if_neg hfa] at h; exact extractGlobal_error_shape h

/-- The dispatch loop computes exactly: resolve all calls in order (first
failure aborts), evaluate the non-concurrent ones in place, and queue the
concurrent ones as tasks, both tagged with their original positions. -/
theorem dispatchPhase_eq (env : ExecEnv) (functions : Functions) (agent : Option Agent)
    (l : List ToolCall) (k : Nat) :
    dispatchPhase env functions agent (enumFrom k l) =
      match resolveAll functions agent l with
      | .error e => .error e
      | .ok cfgs =>
        .ok (((enumFrom k l).zip cfgs).filterMap
              (fun p => if p.2.concurrent then none
                else some (p.1.1, ToolResult.new_from_eval_result p.1.2 (p.1.2.eval env p.2))),
            ((enumFrom k l).zip cfgs).filterMap
              (fun p => if p.2.concurrent then some (p.1.1, p.1.2, p.2) else none)) := by
  induction l generalizing k with
  | nil => rfl
  | cons c rest ih =>
    simp only [enumFrom, dispatchPhase, resolveAll]
    cases hx : ToolCallConfig.extract c.name functions agent with
    | error e => rfl
    | ok cfg =>
      cases hr : resolveAll functions agent rest with
      | error e =>
        have hd := ih (k + 1)
        rw [hr] at hd
        by_cases hcc : cfg.concurrent = true <;> simp [hcc, hd]
      | ok cfgs =>
        have hd := ih (k + 1)
        rw [hr] at hd
        by_cases hcc : cfg.concurrent = true <;>
          simp [hcc, hd, List.zip_cons_cons, List.filterMap_cons]

theorem filterMap_split_perm {α β : Type} (L : List α) (cpred : α → Bool) (g : α → β) :
    List.Perm
      ((L.filterMap fun x => if cpred x then none else some (g x)) ++
        (L.filterMap fun x => if cpred x then some (g x) else none))
      (L.map g) := by
  induction L with
  | nil => simp
  | cons x L ih =>
    by_cases hc : cpred x = true
    · simp only [List.filterMap_cons, hc, if_true, List.map_cons]
      exact List.perm_middle.trans (ih.cons (g x))
    · simp only [List.filterMap_cons, hc, if_false, List.map_cons, List.cons_append]
      exact ih.cons (g x)

theorem zip_enum_map (env : ExecEnv) (l : List ToolCall) :
    ∀ (cfgs : List ToolCallConfig) (k : Nat),
    ((enumFrom k l).zip cfgs).map
        (fun p => (p.1.1, ToolResult.new_from_eval_result p.1.2 (p.1.2.eval env p.2)))
      = enumFrom k (runCalls env l cfgs) := by
  induction l with
  | nil => intro cfgs k; simp [enumFrom, runCalls]
  | cons c rest ih =>
    intro cfgs k
    cases cfgs with
    | nil => simp [enumFrom, runCalls]
    | cons cfg cfgs =>
      have hrc : runCalls env (c :: rest) (cfg :: cfgs)
          = ToolResult.new_from_eval_result c (c.eval env cfg) :: runCalls env rest cfgs := by
        simp [runCalls, List.zip_cons_cons]
      rw [hrc]
      simp only [enumFrom, List.zip_cons_cons, List.map_cons]
      rw [ih cfgs (k + 1)]

theorem lookupResult_eq_none_iff (m : List (Nat × ToolResult)) (i : Nat) :
    lookupResult m i = none ↔ i ∉ m.map Prod.fst := by
  unfold lookupResult
  cases hf : m.find? (fun p => p.1 == i) with
  | some p =>
    simp only [reduceCtorEq, false_iff, not_not]
    have hp := List.mem_of_find?_eq_some hf
    have hpi := List.find?_some hf
    exact List.mem_map.mpr ⟨p, hp, by simpa using hpi⟩
  | none =>
    simp only [true_iff]
    intro hmem
    obtain ⟨p, hp, hfst⟩ := List.mem_map.mp hmem
    have := List.find?_eq_none.mp hf p hp
    simp [hfst] at this

theorem lookupResult_eq_some_of_mem {m : List (Nat × ToolResult)} {i : Nat} {r : ToolResult}
    (hnd : (m.map Prod.fst).Nodup) (hm : (i, r) ∈ m) : lookupResult m i = some r := by
  induction m with
  | nil => cases hm
  | cons p m ih =>
    simp only [List.map_cons, List.nodup_cons] at hnd
    cases hbeq : (p.1 == i) with
    | true =>
      have hpi : p.1 = i := by simpa using hbeq
      have hpr : p = (i, r) := by
        rcases List.mem_cons.mp hm with h1 | h2
        · exact h1.symm
        · exact absurd (List.mem_map.mpr ⟨(i, r), h2, hpi.symm ▸ rfl⟩) hnd.1
      simp [lookupResult, List.find?_cons, hbeq, hpr]
    | false =>
      have hpi : p.1 ≠ i := by simpa using hbeq
      have h2 : (i, r) ∈ m := by
        rcases List.mem_cons.mp hm with h1 | h2
        · exact absurd (congrArg Prod.fst h1.symm) hpi
        · exact h2
      have := ih hnd.2 h2
      simpa [lookupResult, List.find?_cons, hbeq] using this

theorem lookupResult_mem_of_eq_some {m : List (Nat × ToolResult)} {i : Nat} {r : ToolResult}
    (h : lookupResult m i = some r) : (i, r) ∈ m := by
  unfold lookupResult at h
  cases hf : m.find? (fun p => p.1 == i) with
  | none => rw [hf] at h; exact absurd h (by simp)
  | some p =>
    rw [hf] at h
    injection h with h
    have hp := List.mem_of_find?_eq_some hf
    have hpi : p.1 = i := by simpa using (List.find?_some hf)
    have : p = (i, r) := by
      cases p with
      | mk a b => simp only at hpi h; rw [hpi, h]
    exact this ▸ hp

theorem lookupResult_perm {m1 m2 : List (Nat × ToolResult)}
    (h : List.Perm m1 m2) (hnd : (m1.map Prod.fst).Nodup) (i : Nat) :
    lookupResult m1 i = lookupResult m2 i := by
  have hnd2 : (m2.map Prod.fst).Nodup := ((h.map Prod.fst).nodup_iff).mp hnd
  cases hl : lookupResult m1 i with
  | some r =>
    have hm := lookupResult_mem_of_eq_some hl
    have hm2 := h.mem_iff.mp hm
    rw [lookupResult_eq_some_of_mem hnd2 hm2]
  | none =>
    have h1 : i ∉ m1.map Prod.fst := (lookupResult_eq_none_iff _ _).mp hl
    have h2 : i ∉ m2.map Prod.fst := fun hmem => h1 (((h.map Prod.fst).mem_iff).mpr hmem)
    rw [(lookupResult_eq_none_iff _ _).mpr h2]

theorem lookupResult_enumFrom (rs : List ToolResult) :
    ∀ (k j : Nat), lookupResult (enumFrom k rs) (k + j) = rs[j]? := by
  induction rs with
  | nil => intro k j; simp [enumFrom, lookupResult]
  | cons r rs ih =>
    intro k j
    cases j with
    | zero =>
      have hfind : ((enumFrom k (r :: rs)).find? (fun p => p.1 == k)) = some (k, r) := by
        simp only [enumFrom]
        exact List.find?_cons_of_pos _ (by simp)
      simp only [Nat.add_zero, List.getElem?_cons_zero]
      unfold lookupResult
      rw [hfind]
    | succ j =>
      have hne : ¬ ((((k, r) : Nat × ToolResult).1 == k + (j + 1)) = true) := by
        simp only [beq_iff_eq]
        omega
      have hfind : ((enumFrom k (r :: rs)).find? (fun p => p.1 == k + (j + 1)))
          = ((enumFrom (k + 1) rs).find? (fun p => p.1 == k + (j + 1))) := by
        simp only [enumFrom]
        exact List.find?_cons_of_neg _ hne
      have hstep : k + (j + 1) = (k + 1) + j := by omega
      have htail := ih (k + 1) j
      unfold lookupResult at htail ⊢
      rw [hfind, hstep, List.getElem?_cons_succ]
      exact htail

theorem reconstructFrom_eq_ok (rs : List ToolResult) :
    ∀ (m : List (Nat × ToolResult)) (k : Nat),
    (∀ j, j < rs.length → lookupResult m (k + j) = rs[j]?) →
    reconstructFrom m k rs.length = .ok rs := by
  induction rs with
  | nil => intro m k _; rfl
  | cons r rs ih =>
    intro m k h
    have h0 : lookupResult m k = some r := by
      have := h 0 (by simp)
      simpa using this
    have hrest : ∀ j, j < rs.length → lookupResult m ((k + 1) + j) = rs[j]? := by
      intro j hj
      have := h (j + 1) (by simpa using Nat.succ_lt_succ hj)
      rw [show k + (j + 1) = (k + 1) + j from by omega] at this
      simpa using this
    simp only [List.length_cons, reconstructFrom, h0, ih m (k + 1) hrest]

theorem reconstructFrom_error_shape {m : List (Nat × ToolResult)} :
    ∀ {k n : Nat} {e : DispatchError},
    reconstructFrom m k n = .error e → e = .reconstructFailed := by
  intro k n
  induction n generalizing k with
  | zero => intro e h; exact absurd h (by simp [reconstructFrom])
  | succ n ih =>
    intro e h
    simp only [reconstructFrom] at h
    cases hl : lookupResult m k with
    | none => rw [hl] at h; injection h with h; exact h.symm
    | some r =>
      rw [hl] at h
      cases hr : reconstructFrom m (k + 1) n with
      | error e2 =>
        rw [hr] at h
        injection h with h
        rw [← h]
        exact ih hr
      | ok rest => rw [hr] at h; exact absurd h (by simp)

theorem reconstruct_ok_of_perm {M : List (Nat × ToolResult)} {rs : List ToolResult}
    (hperm : List.Perm M (enumFrom 0 rs)) :
    reconstruct M M.length = .ok rs := by
  have hnodup : ((enumFrom 0 rs).map Prod.fst).Nodup := by
    rw [enumFrom_map_fst]
    exact List.nodup_range' 0 rs.length
  have hnodupM : (M.map Prod.fst).Nodup := ((hperm.map Prod.fst).nodup_iff).mpr hnodup
  have hmlen : M.length = rs.length := by
    have := hperm.length_eq
    rwa [enumFrom_length] at this
  unfold reconstruct
  rw [hmlen]
  refine reconstructFrom_eq_ok rs M 0 (fun j hj => ?_)
  rw [lookupResult_perm hperm hnodupM (0 + j)]
  exact lookupResult_enumFrom rs 0 j

theorem seq_tasks_perm (env : ExecEnv)
    (ord : List (Nat × ToolResult) → List (Nat × ToolResult))
    (hord : ∀ l, List.Perm (ord l) l)
    (d : List ToolCall) (cfgs : List ToolCallConfig) :
    List.Perm
      (((enumFrom 0 d).zip cfgs).filterMap
          (fun p => if p.2.concurrent then none
            else some (p.1.1, ToolResult.new_from_eval_result p.1.2 (p.1.2.eval env p.2)))
        ++ ord ((((enumFrom 0 d).zip cfgs).filterMap
          (fun p => if p.2.concurrent then some (p.1.1, p.1.2, p.2) else none)).map
            (taskEval env)))
      (enumFrom 0 (runCalls env d cfgs)) := by
  have hTmap : ((((enumFrom 0 d).zip cfgs).filterMap
        (fun p => if p.2.concurrent then some (p.1.1, p.1.2, p.2) else none)).map
          (taskEval env))
      = ((enumFrom 0 d).zip cfgs).filterMap
          (fun p => if p.2.concurrent
            then some (p.1.1, ToolResult.new_from_eval_result p.1.2 (p.1.2.eval env p.2))
            else none) := by
    rw [List.map_filterMap]
    congr 1
    funext p
    by_cases hcc : p.2.concurrent = true <;> simp [hcc, taskEval]
  rw [hTmap]
  have h3 := filterMap_split_perm ((enumFrom 0 d).zip cfgs)
    (fun p => p.2.concurrent)
    (fun p => (p.1.1, ToolResult.new_from_eval_result p.1.2 (p.1.2.eval env p.2)))
  have h4 := zip_enum_map env d cfgs 0
  rw [h4] at h3
  exact (List.Perm.append_left _ (hord _)).trans h3

/-- Main lemma: `eval_tool_calls` computes exactly the sequential reference semantics,
for any completion order of the concurrent tasks. -/
theorem eval_tool_calls_eq_evalSpec (env : ExecEnv) (functions : Functions)
    (agent : Option Agent) (ord : List (Nat × ToolResult) → List (Nat × ToolResult))
    (hord : ∀ l, List.Perm (ord l) l) (calls : List ToolCall) :
    eval_tool_calls env functions agent ord calls = evalSpec env functions agent calls := by
  by_cases hemp : calls.isEmpty = true
  · simp [eval_tool_calls, evalSpec, hemp]
  · have hne : calls ≠ [] := fun h => hemp (by simp [h])
    have hdne : ToolCall.dedup calls ≠ [] := dedup_ne_nil calls hne
    have hempf : calls.isEmpty = false := by
      cases hcal : calls with
      | nil => exact absurd hcal hne
      | cons a l => rfl
    have hdemp : (ToolCall.dedup calls).isEmpty = false := by
      cases hd : ToolCall.dedup calls with
      | nil => exact absurd hd hdne
      | cons a l => rfl
    unfold eval_tool_calls evalSpec dispatchRaw
    simp only [hempf, Bool.false_eq_true, if_false, hdemp]
    rw [dispatchPhase_eq env functions agent (ToolCall.dedup calls) 0]
    cases hr : resolveAll functions agent (ToolCall.dedup calls) with
    | error e => rfl
    | ok cfgs =>
      dsimp only
      rw [reconstruct_ok_of_perm (seq_tasks_perm env ord hord (ToolCall.dedup calls) cfgs)]

theorem resolveAll_ok_forall {functions : Functions} {agent : Option Agent}
    {l : List ToolCall} {cfgs : List ToolCallConfig}
    (h : resolveAll functions agent l = .ok cfgs) :
    ∀ c ∈ l, ∃ cfg, ToolCallConfig.extract c.name functions agent = .ok cfg := by
  induction l generalizing cfgs with
  | nil => intro c hc; cases hc
  | cons c0 rest ih =>
    simp only [resolveAll] at h
    cases hx : ToolCallConfig.extract c0.name functions agent with
    | error e => rw [hx] at h; exact absurd h (by simp)
    | ok cfg =>
      rw [hx] at h
      cases hr : resolveAll functions agent rest with
      | error e => rw [hr] at h; exact absurd h (by simp)
      | ok cfgs2 =>
        intro c hc
        rcases List.mem_cons.mp hc with h1 | h2
        · exact ⟨cfg, h1 ▸ hx⟩
        · exact ih hr c h2

theorem runCalls_map_call (env : ExecEnv) (d : List ToolCall) (cfgs : List ToolCallConfig)
    (hlen : cfgs.length = d.length) :
    (runCalls env d cfgs).map ToolResult.call = d := by
  induction d generalizing cfgs with
  | nil => simp [runCalls]
  | cons c rest ih =>
    cases cfgs with
    | nil => simp at hlen
    | cons cfg cfgs =>
      simp only [List.length_cons, Nat.succ.injEq] at hlen
      simp [runCalls, List.zip_cons_cons, ToolResult.new_from_eval_result, ToolResult.new]
      have := ih cfgs hlen
      simpa [runCalls] using this

theorem dispatchRaw_ok_inv {env : ExecEnv} {functions : Functions} {agent : Option Agent}
    {calls : List ToolCall} {r : List ToolResult}
    (h : dispatchRaw env functions agent calls = .ok r) :
    ∃ cfgs, resolveAll functions agent (ToolCall.dedup calls) = .ok cfgs ∧
      r = runCalls env (ToolCall.dedup calls) cfgs := by
  unfold dispatchRaw at h
  cases hr : resolveAll functions agent (ToolCall.dedup calls) with
  | error e => rw [hr] at h; exact absurd h (by simp)
  | ok cfgs =>
    rw [hr] at h
    injection h with h
    exact ⟨cfgs, rfl, h.symm⟩

theorem dispatchPhase_error_shape {env : ExecEnv} {functions : Functions}
    {agent : Option Agent} {l : List ToolCall} {e : DispatchError}
    (h : dispatchPhase env functions agent (enumFrom 0 l) = .error e) :
    ∃ nm, e = .functionNotFound nm := by
  rw [dispatchPhase_eq] at h
  cases hr : resolveAll functions agent l with
  | error e2 =>
    rw [hr] at h
    injection h with h
    obtain ⟨c, _, hex⟩ := resolveAll_error_exists hr
    exact ⟨c.name, by rw [← h]; exact extract_error_shape hex⟩
  | ok cfgs => rw [hr] at h; exact absurd h (by simp)

/-- A process-level failure surfaces from `ToolCall::eval` as an error whose
message is the serialized `error:true, stdout, stderr` JSON text. -/
theorem eval_process_failure (env : ExecEnv) (tc : ToolCall) (config : ToolCallConfig)
    (json_data : Value) (pr : RunOutcome)
    (hargs : tc.normalizeArguments env config.name = .ok json_data)
    (hrun : env.runner config.cmd (config.args ++ [json_data.toJsonString]) = .ok pr)
    (hfail : pr.success = false) :
    tc.eval env config = .error (Value.toJsonString
      (.obj [("error", .bool true), ("stdout", .str pr.stdout), ("stderr", .str pr.stderr)])) := by
  unfold ToolCall.eval
  rw [hargs]
  dsimp only
  unfold run_llm_function
  rw [hrun]
  dsimp only
  rw [hfail]
  rfl

/-! ## Claim theorems -/

/-- C3: For every list of ToolCalls, deduplication preserves the relative
order of surviving calls (the result is a sublist of the input); a call
survives exactly when its id is absent or when no later call carries the
same id — so for any id occurring more than once, exactly the occurrence at
the highest original index survives, and id-less calls always survive. -/
theorem c3_dedup_order_and_survivors (calls : List ToolCall) :
    ToolCall.dedup calls = dedupSpec calls ∧ (ToolCall.dedup calls).Sublist calls :=
  ⟨dedup_eq_dedupSpec calls, dedup_sublist calls⟩

/-- C10: Deduplication is idempotent. -/
theorem c10_dedup_idempotent (calls : List ToolCall) :
    ToolCall.dedup (ToolCall.dedup calls) = ToolCall.dedup calls := by
  have h1 : ToolCall.dedup (ToolCall.dedup calls) = dedupSpec (ToolCall.dedup calls) :=
    dedup_eq_dedupSpec _
  rw [h1, dedup_eq_dedupSpec calls]
  exact dedupSpec_of_noLaterDup _ (noLaterDup_dedupSpec calls)

/-- C7: Deduplication of a non-empty batch is non-empty, so the
`LoopDetected` batch-abort branch of `eval_tool_calls` (taken only when a
non-empty input deduplicates to nothing) is unreachable: the dispatcher
never returns that error. -/
theorem c7_dedup_nonempty_loop_unreachable (env : ExecEnv) (functions : Functions)
    (agent : Option Agent) (ord : List (Nat × ToolResult) → List (Nat × ToolResult))
    (calls : List ToolCall) (h : calls ≠ []) :
    ToolCall.dedup calls ≠ [] ∧
      eval_tool_calls env functions agent ord calls ≠ .error .loopDetected := by
  refine ⟨dedup_ne_nil calls h, ?_⟩
  have hempf : calls.isEmpty = false := by
    cases hcal : calls with
    | nil => exact absurd hcal h
    | cons a l => rfl
  have hdemp : (ToolCall.dedup calls).isEmpty = false := by
    cases hd : ToolCall.dedup calls with
    | nil => exact absurd hd (dedup_ne_nil calls h)
    | cons a l => rfl
  unfold eval_tool_calls
  simp only [hempf, Bool.false_eq_true, if_false, hdemp]
  cases hd : dispatchPhase env functions agent (enumFrom 0 (ToolCall.dedup calls)) with
  | error e =>
    obtain ⟨nm, hnm⟩ := dispatchPhase_error_shape hd
    subst hnm
    simp
  | ok st =>
    obtain ⟨s, t⟩ := st
    dsimp only
    cases hrec : reconstruct (s ++ ord (t.map (taskEval env)))
        (s ++ ord (t.map (taskEval env))).length with
    | error e =>
      unfold reconstruct at hrec
      have he := reconstructFrom_error_shape hrec
      subst he
      simp
    | ok final => simp

/-- Witness for C7: a concrete one-call batch. -/
theorem c7_witness :
    ToolCall.dedup [⟨"t", .null, none⟩] ≠ [] ∧
      eval_tool_calls envNull ⟨[]⟩ none id [⟨"t", .null, none⟩]
        ≠ .error .loopDetected :=
  c7_dedup_nonempty_loop_unreachable envNull ⟨[]⟩ none id [⟨"t", .null, none⟩] (by decide)

/-- C5: If the pre-collapse result list is `r`, the dispatcher returns `[]`
when every output in `r` is null or the sentinel `"DONE"`, and returns `r`
in full otherwise. -/
theorem c5_all_done_collapse (env : ExecEnv) (functions : Functions) (agent : Option Agent)
    (ord : List (Nat × ToolResult) → List (Nat × ToolResult))
    (hord : ∀ l, List.Perm (ord l) l) (calls : List ToolCall) (r : List ToolResult)
    (h : dispatchRaw env functions agent calls = .ok r) :
    eval_tool_calls env functions agent ord calls = .ok (if allDone r then [] else r) := by
  rw [eval_tool_calls_eq_evalSpec env functions agent ord hord]
  unfold evalSpec
  by_cases hemp : calls.isEmpty = true
  · have hcalls : calls = [] := by
      cases hc : calls with
      | nil => rfl
      | cons a l => rw [hc] at hemp; simp at hemp
    subst hcalls
    have hr0 : dispatchRaw env functions agent ([] : List ToolCall) = .ok [] := rfl
    rw [hr0] at h
    injection h with h
    subst h
    rfl
  · have hempf : calls.isEmpty = false := by
      cases hc : calls with
      | nil => subst hc; simp at hemp
      | cons a l => rfl
    simp only [hempf, Bool.false_eq_true, if_false]
    rw [h]

/-- Witness for C5: two calls both producing null output collapse to the
empty result list. -/
theorem c5_witness :
    eval_tool_calls envNull ⟨[⟨"t1", "d", false, false⟩, ⟨"t2", "d", false, false⟩]⟩ none id
      [⟨"t1", .obj [], none⟩, ⟨"t2", .obj [], none⟩] = .ok [] := by
  have h := c5_all_done_collapse envNull
    ⟨[⟨"t1", "d", false, false⟩, ⟨"t2", "d", false, false⟩]⟩ none id
    (fun l => List.Perm.refl l)
    [⟨"t1", .obj [], none⟩, ⟨"t2", .obj [], none⟩]
    [⟨⟨"t1", .obj [], none⟩, .str "DONE"⟩, ⟨⟨"t2", .obj [], none⟩, .str "DONE"⟩]
    (by decide)
  exact h.trans (by decide)

/-- C4, counterexample: a single call whose output is null yields `[]`, so
`len(results) = 0 ≠ 1 = len(deduplicated_calls)` — the claimed length
equality does not hold for all batches. -/
theorem c4_counterexample_all_done :
    eval_tool_calls envNull ⟨[⟨"t1", "d", false, false⟩]⟩ none id [⟨"t1", .obj [], none⟩]
        = .ok []
      ∧ (ToolCall.dedup [⟨"t1", .obj [], none⟩]).length = 1 := by decide

/-- C4, amended: the dispatcher's output never depends on the concurrent
completion order, and whenever it returns a non-empty result list there is
exactly one result per deduplicated call, in deduplicated input order
(`results.map call = dedup calls`); the all-null-or-DONE collapse is the
only exception. -/
theorem c4_results_align_unless_all_done (env : ExecEnv) (functions : Functions)
    (agent : Option Agent) (ord : List (Nat × ToolResult) → List (Nat × ToolResult))
    (hord : ∀ l, List.Perm (ord l) l) (calls : List ToolCall) (results : List ToolResult)
    (hok : eval_tool_calls env functions agent ord calls = .ok results) :
    eval_tool_calls env functions agent ord calls
        = eval_tool_calls env functions agent id calls ∧
      (results ≠ [] → results.map ToolResult.call = ToolCall.dedup calls) := by
  constructor
  · rw [eval_tool_calls_eq_evalSpec env functions agent ord hord,
      eval_tool_calls_eq_evalSpec env functions agent id (fun l => List.Perm.refl l)]
  · intro hne
    rw [eval_tool_calls_eq_evalSpec env functions agent ord hord] at hok
    unfold evalSpec at hok
    by_cases hemp : calls.isEmpty = true
    · rw [if_pos hemp] at hok
      injection hok with hok
      exact absurd hok.symm hne
    · rw [if_neg hemp] at hok
      cases hr : dispatchRaw env functions agent calls with
      | error e => rw [hr] at hok; exact absurd hok (by simp)
      | ok r =>
        rw [hr] at hok
        dsimp only at hok
        injection hok with hok
        obtain ⟨cfgs, hres, hreq⟩ := dispatchRaw_ok_inv hr
        by_cases hall : allDone r = true
        · rw [if_pos hall] at hok; exact absurd hok.symm hne
        · rw [if_neg hall] at hok
          rw [← hok, hreq]
          exact runCalls_map_call env _ cfgs (resolveAll_ok_length hres)

/-- Witness for C4: two concurrent calls evaluated with a reversed
completion order produce the same output as canonical order, with one
result per call in input order. -/
theorem c4_witness :
    eval_tool_calls envHello
        ⟨[⟨"t1", "d", false, true⟩, ⟨"t2", "d", false, true⟩]⟩ none List.reverse
        [⟨"t1", .obj [], none⟩, ⟨"t2", .obj [], none⟩]
      = eval_tool_calls envHello
        ⟨[⟨"t1", "d", false, true⟩, ⟨"t2", "d", false, true⟩]⟩ none id
        [⟨"t1", .obj [], none⟩, ⟨"t2", .obj [], none⟩] ∧
    [ToolResult.mk ⟨"t1", .obj [], none⟩ (.obj [("output", .str "hello")]),
        ToolResult.mk ⟨"t2", .obj [], none⟩ (.obj [("output", .str "hello")])].map
        ToolResult.call
      = ToolCall.dedup [⟨"t1", .obj [], none⟩, ⟨"t2", .obj [], none⟩] := by
  have h := c4_results_align_unless_all_done envHello
    ⟨[⟨"t1", "d", false, true⟩, ⟨"t2", "d", false, true⟩]⟩ none List.reverse
    (fun l => List.reverse_perm l)
    [⟨"t1", .obj [], none⟩, ⟨"t2", .obj [], none⟩]
    [ToolResult.mk ⟨"t1", .obj [], none⟩ (.obj [("output", .str "hello")]),
      ToolResult.mk ⟨"t2", .obj [], none⟩ (.obj [("output", .str "hello")])]
    (by decide)
  exact ⟨h.1, h.2 (by decide)⟩

/-- C2, counterexample: a two-call batch whose second call's name resolves
in neither scope makes the whole dispatcher call fail with `NotFound` —
no result is returned for the first (resolvable) call, contrary to the
claim that only the individual call fails. -/
theorem c2_counterexample_notfound_batch :
    eval_tool_calls envNull ⟨[⟨"known", "d", false, false⟩]⟩ none id
        [⟨"known", .obj [], some "1"⟩, ⟨"unknown", .obj [], some "2"⟩]
      = .error (.functionNotFound "unknown") := by decide

/-- C2, amended: when some surviving call's name resolves in neither the
agent scope nor the global declaration store, `eval_tool_calls` aborts the
whole batch with a `NotFound` error (the `?` on `ToolCallConfig::extract`
propagates it); no call in the batch receives a result. -/
theorem c2_notfound_aborts_batch (env : ExecEnv) (functions : Functions)
    (agent : Option Agent) (ord : List (Nat × ToolResult) → List (Nat × ToolResult))
    (hord : ∀ l, List.Perm (ord l) l) (calls : List ToolCall)
    (hfail : ∃ c ∈ ToolCall.dedup calls,
      ∀ cfg, ToolCallConfig.extract c.name functions agent ≠ .ok cfg) :
    ∃ nm, eval_tool_calls env functions agent ord calls
      = .error (.functionNotFound nm) := by
  obtain ⟨c, hc, hnok⟩ := hfail
  rw [eval_tool_calls_eq_evalSpec env functions agent ord hord]
  have hne : calls ≠ [] := by
    intro heq
    subst heq
    have hnil : ToolCall.dedup ([] : List ToolCall) = [] := rfl
    rw [hnil] at hc
    cases hc
  have hempf : calls.isEmpty = false := by
    cases hcal : calls with
    | nil => exact absurd hcal hne
    | cons a l => rfl
  unfold evalSpec dispatchRaw
  simp only [hempf, Bool.false_eq_true, if_false]
  cases hr : resolveAll functions agent (ToolCall.dedup calls) with
  | ok cfgs =>
    obtain ⟨cfg, hcfg⟩ := resolveAll_ok_forall hr c hc
    exact absurd hcfg (hnok cfg)
  | error e =>
    obtain ⟨c2, hc2, hex⟩ := resolveAll_error_exists hr
    refine ⟨c2.name, ?_⟩
    dsimp only
    rw [extract_error_shape hex]

/-- Witness for C2 (amended) at a concrete batch with one unresolvable
call. -/
theorem c2_witness :
    ∃ nm, eval_tool_calls envNull ⟨[⟨"known", "d", false, false⟩]⟩ none id
        [⟨"known", .obj [], some "a"⟩, ⟨"unknown2", .obj [], some "b"⟩]
      = .error (.functionNotFound nm) := by
  refine c2_notfound_aborts_batch envNull ⟨[⟨"known", "d", false, false⟩]⟩ none id
    (fun l => List.Perm.refl l)
    [⟨"known", .obj [], some "a"⟩, ⟨"unknown2", .obj [], some "b"⟩] ?_
  refine ⟨⟨"unknown2", .obj [], some "b"⟩, by decide, ?_⟩
  intro cfg h
  have h2 : (Except.error (DispatchError.functionNotFound "unknown2")
      : Except DispatchError ToolCallConfig) = .ok cfg := h
  exact Except.noConfusion h2

/-- C1, counterexample: for a process-level failure (non-zero exit with
stdout `out`, stderr `err`) the captured output is the
`error:true, message` object whose message embeds the serialized
stdout/stderr JSON text — it is not the claimed bare
`error:true, stdout, stderr` object. -/
theorem c1_counterexample_process_failure_shape :
    eval_tool_calls envMixed ⟨[⟨"failing_tool", "d", false, false⟩]⟩ none id
        [⟨"failing_tool", .obj [], none⟩]
      = .ok [⟨⟨"failing_tool", .obj [], none⟩,
          .obj [("error", .bool true),
            ("message", .str "\x7b\"error\":true,\"stdout\":\"out\",\"stderr\":\"err\"\x7d")]⟩]
    ∧ Value.obj [("error", .bool true),
          ("message", .str "\x7b\"error\":true,\"stdout\":\"out\",\"stderr\":\"err\"\x7d")]
        ≠ Value.obj [("error", .bool true), ("stdout", .str "out"), ("stderr", .str "err")] := by
  decide

/-- C1, amended: once every surviving call resolves, the dispatcher always
returns a result list (never aborts): one result per surviving call in
order when the list is non-empty, and every call whose evaluation fails —
invalid arguments or process failure alike — carries the
`error:true, message` object at its position (for process-level failures
the message is the serialized stdout/stderr JSON text, per
`eval_process_failure`). -/
theorem c1_per_call_failure_isolation (env : ExecEnv) (functions : Functions)
    (agent : Option Agent) (ord : List (Nat × ToolResult) → List (Nat × ToolResult))
    (hord : ∀ l, List.Perm (ord l) l) (calls : List ToolCall)
    (cfgs : List ToolCallConfig)
    (hres : resolveAll functions agent (ToolCall.dedup calls) = .ok cfgs) :
    ∃ results, eval_tool_calls env functions agent ord calls = .ok results ∧
      (results = [] ∨ results.map ToolResult.call = ToolCall.dedup calls) ∧
      (∀ tr ∈ results, ∀ cfg msg,
        ToolCallConfig.extract tr.call.name functions agent = .ok cfg →
        tr.call.eval env cfg = .error msg →
        tr.output = .obj [("error", .bool true), ("message", .str msg)]) := by
  rw [eval_tool_calls_eq_evalSpec env functions agent ord hord]
  unfold evalSpec dispatchRaw
  by_cases hemp : calls.isEmpty = true
  · refine ⟨[], ?_, Or.inl rfl, ?_⟩
    · rw [if_pos hemp]
    · intro tr htr; cases htr
  · rw [if_neg hemp, hres]
    dsimp only
    refine ⟨if allDone (runCalls env (ToolCall.dedup calls) cfgs) = true then []
      else runCalls env (ToolCall.dedup calls) cfgs, rfl, ?_, ?_⟩
    · by_cases hall : allDone (runCalls env (ToolCall.dedup calls) cfgs) = true
      · rw [if_pos hall]; exact Or.inl rfl
      · rw [if_neg hall]
        exact Or.inr (runCalls_map_call env _ cfgs (resolveAll_ok_length hres))
    · intro tr htr cfg msg hex heval
      have htr2 : tr ∈ runCalls env (ToolCall.dedup calls) cfgs := by
        by_cases hall : allDone (runCalls env (ToolCall.dedup calls) cfgs) = true
        · rw [if_pos hall] at htr; cases htr
        · rw [if_neg hall] at htr; exact htr
      unfold runCalls at htr2
      obtain ⟨p, hp, htr_eq⟩ := List.mem_map.mp htr2
      have hcall : tr.call = p.1 := by rw [← htr_eq]; rfl
      have hex2 : ToolCallConfig.extract p.1.name functions agent = .ok p.2 :=
        resolveAll_ok_extract hres p hp
      rw [hcall] at hex
      rw [hex] at hex2
      injection hex2 with hcfg
      rw [hcall, hcfg] at heval
      rw [← htr_eq]
      unfold ToolResult.new_from_eval_result ToolResult.new
      dsimp only
      rw [heval]

/-- Witness for C1 (amended): the batch `[ok_tool, failing_tool, ok_tool2]`
with all calls resolvable. -/
theorem c1_witness :
    ∃ results, eval_tool_calls envMixed
        ⟨[⟨"ok_tool", "d", false, false⟩, ⟨"failing_tool", "d", false, false⟩,
          ⟨"ok_tool2", "d", false, false⟩]⟩ none id
        [⟨"ok_tool", .obj [], none⟩, ⟨"failing_tool", .obj [], none⟩,
          ⟨"ok_tool2", .obj [], none⟩] = .ok results ∧
      (results = [] ∨ results.map ToolResult.call
        = ToolCall.dedup [⟨"ok_tool", .obj [], none⟩, ⟨"failing_tool", .obj [], none⟩,
            ⟨"ok_tool2", .obj [], none⟩]) ∧
      (∀ tr ∈ results, ∀ cfg msg,
        ToolCallConfig.extract tr.call.name
          ⟨[⟨"ok_tool", "d", false, false⟩, ⟨"failing_tool", "d", false, false⟩,
            ⟨"ok_tool2", "d", false, false⟩]⟩ none = .ok cfg →
        tr.call.eval envMixed cfg = .error msg →
        tr.output = .obj [("error", .bool true), ("message", .str msg)]) :=
  c1_per_call_failure_isolation envMixed
    ⟨[⟨"ok_tool", "d", false, false⟩, ⟨"failing_tool", "d", false, false⟩,
      ⟨"ok_tool2", "d", false, false⟩]⟩ none id (fun l => List.Perm.refl l)
    [⟨"ok_tool", .obj [], none⟩, ⟨"failing_tool", .obj [], none⟩,
      ⟨"ok_tool2", .obj [], none⟩]
    [⟨"ok_tool", "ok_tool", [], [], false⟩, ⟨"failing_tool", "failing_tool", [], [], false⟩,
      ⟨"ok_tool2", "ok_tool2", [], [], false⟩]
    (by decide)

/-- C6: For every successful local execution (arguments normalized, process
exited zero), the call's value is the parsed JSON of the temp file's
contents when they parse, the `output`-wrapped raw text when they do not,
and JSON null when the file is empty or absent. -/
theorem c6_output_mapping (env : ExecEnv) (tc : ToolCall) (config : ToolCallConfig)
    (json_data : Value) (pr : RunOutcome)
    (hargs : tc.normalizeArguments env config.name = .ok json_data)
    (hrun : env.runner config.cmd (config.args ++ [json_data.toJsonString]) = .ok pr)
    (hsucc : pr.success = true) :
    tc.eval env config = .ok (match pr.llmOutput with
      | some contents =>
        match env.parse contents with
        | some v => v
        | none => .obj [("output", .str contents)]
      | none => .null) := by
  unfold ToolCall.eval
  rw [hargs]
  dsimp only
  unfold run_llm_function
  rw [hrun]
  dsimp only
  rw [hsucc]
  cases hout : pr.llmOutput with
  | none => rfl
  | some contents =>
    cases hparse : env.parse contents with
    | some v => simp [hparse]
    | none => simp [hparse]

/-- Witness for C6: a tool writing the JSON text for an object with
`x = 1` yields exactly that object. -/
theorem c6_witness :
    ToolCall.eval envJson ⟨"t", .obj [], none⟩ ⟨"t", "t", [], [], false⟩
      = .ok (.obj [("x", .num 1)]) := by
  have h := c6_output_mapping envJson ⟨"t", .obj [], none⟩ ⟨"t", "t", [], [], false⟩
    (.obj []) ⟨true, "", "", some "\x7b\"x\":1\x7d"⟩ (by decide) (by decide) rfl
  exact h.trans (by decide)

/-! ## MCP layer lemmas and claims -/

/-- C8: The adapter issues exactly one remote call, named after its tool; a
JSON-object argument is forwarded as the call's named arguments, any
non-object argument yields a call with no arguments; the remote result is
returned unmodified (errors propagate). -/
theorem c8_remote_call_forwarding (a : McpToolAdapter) (args : Value)
    (m : List (String × Value)) :
    (args = Value.obj m →
      a.call args = ([⟨a.tool.name, some m⟩], a.server ⟨a.tool.name, some m⟩)) ∧
    (args.isObj = false →
      a.call args = ([⟨a.tool.name, none⟩], a.server ⟨a.tool.name, none⟩)) := by
  constructor
  · intro h; subst h; rfl
  · intro h
    cases args with
    | obj m2 => simp [Value.isObj] at h
    | null => rfl
    | bool b => rfl
    | num n => rfl
    | str s => rfl
    | arr xs => rfl

/-- Witness for C8: calling `search` with an object and with a bare
string. -/
theorem c8_witness :
    sampleAdapter.call (.obj [("q", .str "foo")])
        = ([⟨"search", some [("q", .str "foo")]⟩], .ok ⟨[.str "search"], some false⟩) ∧
      sampleAdapter.call (.str "bar")
        = ([⟨"search", none⟩], .ok ⟨[.str "search"], some false⟩) :=
  ⟨(c8_remote_call_forwarding sampleAdapter (.obj [("q", .str "foo")])
      [("q", .str "foo")]).1 rfl,
    (c8_remote_call_forwarding sampleAdapter (.str "bar") []).2 rfl⟩

theorem toolSetAdd_get {T : Type} (nameOf : T → String) (tools : List T) :
    ∀ (ts : ToolSet T) (name : String),
    (ToolSet.add nameOf ts tools).get name
      = (tools.reverse.find? (fun t => nameOf t == name)).or (ts.get name) := by
  induction tools with
  | nil => intro ts name; rfl
  | cons t tools ih =>
    intro ts name
    have hstep : ToolSet.add nameOf ts (t :: tools)
        = ToolSet.add nameOf (ts.insert (nameOf t) t) tools := rfl
    rw [hstep, ih, List.reverse_cons, List.find?_append, Option.or_assoc]
    congr 1
    by_cases hp : nameOf t = name
    · have h1 : (ts.insert (nameOf t) t).get name = some t := by
        simp [ToolSet.get, ToolSet.insert, hp]
      have h2 : ([t].find? (fun u => nameOf u == name)) = some t := by
        simp [List.find?_singleton, hp]
      rw [h1, h2, Option.or_some]
    · have hne : ¬ name = nameOf t := fun e => hp e.symm
      have h1 : (ts.insert (nameOf t) t).get name = ts.get name := by
        simp [ToolSet.get, ToolSet.insert, hne]
      have h2 : ([t].find? (fun u => nameOf u == name)) = none := by
        simp [List.find?_singleton, hp]
      rw [h1, h2, Option.none_or]

theorem mcpInit_get {T : Type} (nameOf : T → String) (servers : List (String × List T)) :
    ∀ (acc : List String × ToolSet T) (name : String),
    ((servers.foldl
        (fun (acc : List String × ToolSet T) entry =>
          (acc.1 ++ [entry.1], acc.2.add nameOf entry.2))
        acc).2).get name
      = ((servers.map Prod.snd).flatten.reverse.find? (fun t => nameOf t == name)).or
          (acc.2.get name) := by
  induction servers with
  | nil => intro acc name; rfl
  | cons s servers ih =>
    intro acc name
    simp only [List.foldl_cons, List.map_cons, List.flatten_cons]
    rw [ih, toolSetAdd_get, List.reverse_append, List.find?_append, Option.or_assoc]

/-- C9: For every processing sequence of configured servers, looking a name
up in the assembled registry yields exactly the last tool with that name
across all servers in processing order — so when several servers expose the
same tool name, the single registry entry under that name belongs to the
server processed last (later registration silently replaces earlier
ones). -/
theorem c9_registry_last_wins {T : Type} (nameOf : T → String)
    (servers : List (String × List T)) (name : String) :
    (McpAdapter.init nameOf servers).toolset.get name
      = (servers.map Prod.snd).flatten.reverse.find? (fun t => nameOf t == name) := by
  unfold McpAdapter.init
  dsimp only
  rw [mcpInit_get]
  rw [show (ToolSet.empty : ToolSet T).get name = none from rfl, Option.or_none]

end Aichat

